import Mathlib

/-!
Verification of the search-and-report script `scripts/search_knowledge.py`.

The script loads one text file, searches it for a fixed list of literal
terms, extracts a clamped context window around the first occurrence of
each matching term, formats one labelled block per match, joins the blocks
with a newline and writes the result to an output file.

The embedding works over `List Char` (a Python `str` is a sequence of
Unicode code points).  `strFind` mirrors `str.find` (first occurrence, or
`none` for Python's `-1`); `pySlice` mirrors `content[s:e]` for the
non-negative indices the script produces; `results`, `report` and
`runPipeline` mirror the loop, the `join` and the load/write control flow.
-/

/-- The hardcoded search-term list of the script (line 11). -/
def search_terms : List (List Char) :=
  [("유통(소비)기한").data, ("소비기한").data, ("50%").data, ("40%").data, ("잔여").data]

/-- `strFind term content` mirrors Python `content.find(term)`: the lowest
index whose window of `term.length` characters equals `term`, else `none`
(Python returns `-1`). -/
def strFind (term : List Char) : List Char → Option Nat
  | [] => if ([] : List Char).take term.length = term then some 0 else none
  | c :: rest =>
    if (c :: rest).take term.length = term then some 0
    else (strFind term rest).map (fun n => n + 1)

/-- Python slice `content[s:e]` for `0 ≤ s` and `0 ≤ e` (the script only
produces non-negative bounds). -/
def pySlice (content : List Char) (s e : Nat) : List Char :=
  (content.drop s).take (e - s)

/-- `start = max(0, index - 500)` of the script (line 18); `Nat`
subtraction is exactly the clamp at zero. -/
def startOf (i : Nat) : Nat := i - 500

/-- `end = min(len(content), index + 1500)` of the script (line 19). -/
def endOf (content : List Char) (i : Nat) : Nat :=
  min content.length (i + 1500)

/-- The context snippet `content[start:end]` of the script (line 20). -/
def snippetOf (content : List Char) (i : Nat) : List Char :=
  pySlice content (startOf i) (endOf content i)

/-- The header line `--- Match for '{term}' ---` of the block format. -/
def headerOf (term : List Char) : List Char :=
  ("--- Match for '").data ++ term ++ ("' ---").data

/-- Newline character, as a one-element list. -/
def nl : List Char := ("\n").data

/-- A result block without its trailing newline: the header line, a
newline, then the raw snippet. -/
def blockCore (content term : List Char) (i : Nat) : List Char :=
  headerOf term ++ nl ++ snippetOf content i

/-- One appended element of `results`:
`f"--- Match for '{term}' ---\n{content[start:end]}\n"` (line 20). -/
def blockFor (content term : List Char) (i : Nat) : List Char :=
  blockCore content term i ++ nl

/-- The `results` list built by the search loop (lines 13-20): one block
per term whose `find` does not return `-1`, in term-list order. -/
def results (content : List Char) (terms : List (List Char)) : List (List Char) :=
  terms.filterMap (fun t => (strFind t content).map (fun i => blockFor content t i))

/-- The `results` list with the trailing newline of each block removed. -/
def resultsCore (content : List Char) (terms : List (List Char)) : List (List Char) :=
  terms.filterMap (fun t => (strFind t content).map (fun i => blockCore content t i))

/-- Python `sep.join(blocks)`. -/
def joinSep (sep : List Char) : List (List Char) → List Char
  | [] => []
  | [b] => b
  | b :: b' :: bs => b ++ sep ++ joinSep sep (b' :: bs)

/-- The search pipeline on an already-loaded content, for an arbitrary
term list: `"\n".join(results)` (line 23). -/
def runScan (content : List Char) (terms : List (List Char)) : List Char :=
  joinSep nl (results content terms)

/-- The report string the script writes: the scan with its hardcoded
term list. -/
def report (content : List Char) : List Char :=
  runScan content search_terms

/-- The error kinds of the run: the source file unreadable / destination
unwritable, or the bytes invalid under UTF-8. -/
inductive LoadError where
  | fileAccess : LoadError
  | decode : LoadError

/-- The whole run as a function of the load step's outcome: a load error
aborts before the write (the `open` for writing is only reached after the
search loop), a successful load produces the report. -/
def runPipeline (load : Except LoadError (List Char)) : Except LoadError (List Char) :=
  match load with
  | Except.error e => Except.error e
  | Except.ok content => Except.ok (report content)

/-- The destination file's state after the run, given its state before:
on a load error the write is never reached, on success the report
overwrites it. -/
def finalDest (load : Except LoadError (List Char)) (dest : Option (List Char)) :
    Option (List Char) :=
  match load with
  | Except.error _ => dest
  | Except.ok content => some (report content)

/-- `term` occurs in `content` at index `i`: the window of `term.length`
characters starting at `i` equals `term` (Python `content[i:i+len(term)] == term`). -/
def occursAt (content term : List Char) (i : Nat) : Prop :=
  (content.drop i).take term.length = term

instance (content term : List Char) (i : Nat) : Decidable (occursAt content term i) :=
  inferInstanceAs (Decidable ((content.drop i).take term.length = term))

/-- A string is a block for `term` when it starts with `term`'s header line. -/
def isBlockForB (term b : List Char) : Bool :=
  b.take (headerOf term).length == headerOf term

/-! ### Correctness of `strFind` -/

theorem strFind_some_occursAt {term : List Char} :
    ∀ {content : List Char} {i : Nat},
      strFind term content = some i → occursAt content term i := by
  intro content
  induction content with
  | nil =>
    intro i h
    unfold strFind at h
    split at h
    · rename_i hc
      cases h
      simpa [occursAt] using hc
    · cases h
  | cons c rest ih =>
    intro i h
    unfold strFind at h
    split at h
    · rename_i hc
      cases h
      simpa [occursAt] using hc
    · rcases Option.map_eq_some'.mp h with ⟨j, hj, rfl⟩
      simpa [occursAt] using ih hj

theorem strFind_some_first {term : List Char} :
    ∀ {content : List Char} {i : Nat},
      strFind term content = some i →
        ∀ j, j < i → ¬ occursAt content term j := by
  intro content
  induction content with
  | nil =>
    intro i h j hj
    unfold strFind at h
    split at h
    · cases h; omega
    · cases h
  | cons c rest ih =>
    intro i h j hj
    unfold strFind at h
    split at h
    · cases h; omega
    · rename_i hc
      rcases Option.map_eq_some'.mp h with ⟨k, hk, rfl⟩
      cases j with
      | zero => simpa [occursAt] using hc
      | succ j' =>
        intro hocc
        exact ih hk j' (by omega) (by simpa [occursAt] using hocc)

theorem strFind_none_not_occursAt {term : List Char} :
    ∀ {content : List Char}, strFind term content = none →
      ∀ i, ¬ occursAt content term i := by
  intro content
  induction content with
  | nil =>
    intro h i
    unfold strFind at h
    split at h
    · cases h
    · rename_i hc
      intro hocc
      exact hc (by simpa [occursAt, List.take_nil] using hocc)
  | cons c rest ih =>
    intro h i
    unfold strFind at h
    split at h
    · cases h
    · rename_i hc
      have hrest : strFind term rest = none := by
        cases hr : strFind term rest with
        | none => rfl
        | some k => rw [hr] at h; cases h
      cases i with
      | zero =>
        intro hocc
        exact hc (by simpa [occursAt] using hocc)
      | succ i' =>
        intro hocc
        exact ih hrest i' (by simpa [occursAt] using hocc)

theorem strFind_le_length {term : List Char} :
    ∀ {content : List Char} {i : Nat},
      strFind term content = some i → i ≤ content.length := by
  intro content
  induction content with
  | nil =>
    intro i h
    unfold strFind at h
    split at h
    · cases h; simp
    · cases h
  | cons c rest ih =>
    intro i h
    unfold strFind at h
    split at h
    · cases h; simp
    · rcases Option.map_eq_some'.mp h with ⟨j, hj, rfl⟩
      have := ih hj
      simp only [List.length_cons]
      omega

theorem strFind_eq_some_of_first {term content : List Char} {i : Nat}
    (hocc : occursAt content term i)
    (hfirst : ∀ j, j < i → ¬ occursAt content term j) :
    strFind term content = some i := by
  cases h : strFind term content with
  | none => exact absurd hocc (strFind_none_not_occursAt h i)
  | some k =>
    have h1 := strFind_some_occursAt h
    have h2 := strFind_some_first h
    have hki : ¬ k < i := fun hlt => hfirst k hlt h1
    have hik : ¬ i < k := fun hlt => h2 i hlt hocc
    have : k = i := by omega
    rw [this]

/-! ### Counting blocks in the results list -/

theorem countP_filterMap_general {α β : Type} (p : β → Bool) (f : α → Option β) :
    ∀ l : List α,
      (l.filterMap f).countP p = l.countP (fun a => ((f a).map p).getD false) := by
  intro l
  induction l with
  | nil => simp
  | cons a l ih =>
    cases hfa : f a with
    | none =>
      simp [List.filterMap_cons, hfa, List.countP_cons, ih]
    | some b =>
      simp [List.filterMap_cons, hfa, List.countP_cons, ih]

/-- No header line of one hardcoded term is a prefix of the header line of
a different hardcoded term (the closing `' ---` makes them prefix-free). -/
theorem headerOf_take_ne :
    ∀ t ∈ search_terms, ∀ t' ∈ search_terms, t ≠ t' →
      (headerOf t).take (headerOf t').length ≠ headerOf t' := by
  decide

/-- A block produced for one hardcoded term never passes the block test of
a different hardcoded term. -/
theorem isBlockForB_blockFor_ne {content t t' : List Char} {i : Nat}
    (ht : t ∈ search_terms) (ht' : t' ∈ search_terms) (hne : t ≠ t') :
    isBlockForB t (blockFor content t' i) = false := by
  unfold isBlockForB blockFor blockCore
  rw [beq_eq_false_iff_ne]
  intro h
  rw [List.append_assoc, List.append_assoc, List.take_append_eq_append_take] at h
  rcases Nat.lt_or_ge (headerOf t').length (headerOf t).length with hlt | hge
  · have htk : (headerOf t').take (headerOf t).length = headerOf t' :=
      List.take_of_length_le (by omega)
    rw [htk] at h
    have := congrArg (fun l => List.take (headerOf t').length l) h
    simp only [List.take_left] at this
    exact headerOf_take_ne t ht t' ht' hne this.symm
  · have h0 : (headerOf t).length - (headerOf t').length = 0 := by omega
    rw [h0, List.take_zero, List.append_nil] at h
    exact headerOf_take_ne t' ht' t ht (fun e => hne e.symm) h

/-- A block produced for a term always passes that term's own block test. -/
theorem isBlockForB_blockFor_self (content t : List Char) (i : Nat) :
    isBlockForB t (blockFor content t i) = true := by
  unfold isBlockForB blockFor blockCore
  rw [beq_iff_eq, List.append_assoc, List.append_assoc, List.take_left]

/-- The hardcoded term list has no duplicates. -/
theorem search_terms_nodup : search_terms.Nodup := by decide

/-- Exactly-one-block counting: if `term` is one of the hardcoded terms
and the scanner finds it at `i`, the results list holds exactly one block
passing `term`'s block test. -/
theorem countP_results_eq_one {content term : List Char} {i : Nat}
    (hmem : term ∈ search_terms) (hfind : strFind term content = some i) :
    (results content search_terms).countP (isBlockForB term) = 1 := by
  unfold results
  rw [countP_filterMap_general]
  have hcongr : ∀ t ∈ search_terms,
      (((strFind t content).map (fun j => blockFor content t j)).map
          (isBlockForB term)).getD false = (t == term) := by
    intro t htmem
    by_cases hte : t = term
    · subst hte
      rw [hfind]
      simp [isBlockForB_blockFor_self]
    · cases hft : strFind t content with
      | none => simp [beq_eq_false_iff_ne, hte]
      | some j =>
        simp [isBlockForB_blockFor_ne hmem htmem (fun e => hte e.symm),
          beq_eq_false_iff_ne, hte]
  rw [List.countP_congr (fun t ht => by rw [hcongr t ht])]
  fin_cases hmem <;> decide

/-- Zero-block counting: if `term` is one of the hardcoded terms and the
scanner does not find it, no block in the results list passes `term`'s
block test. -/
theorem countP_results_eq_zero {content term : List Char}
    (hmem : term ∈ search_terms) (hfind : strFind term content = none) :
    (results content search_terms).countP (isBlockForB term) = 0 := by
  unfold results
  rw [countP_filterMap_general]
  have hcongr : ∀ t ∈ search_terms,
      (((strFind t content).map (fun j => blockFor content t j)).map
          (isBlockForB term)).getD false = false := by
    intro t htmem
    by_cases hte : t = term
    · subst hte; rw [hfind]; rfl
    · cases hft : strFind t content with
      | none => rfl
      | some j =>
        simp [isBlockForB_blockFor_ne hmem htmem (fun e => hte e.symm)]
  rw [List.countP_congr (fun t ht => by rw [hcongr t ht])]
  simp

/-! ### Shape of the results list and of the joined report -/

theorem results_eq_filter_map (content : List Char) :
    ∀ terms : List (List Char),
      results content terms
        = (terms.filter (fun t => (strFind t content).isSome)).map
            (fun t => blockFor content t ((strFind t content).getD 0)) := by
  intro terms
  induction terms with
  | nil => rfl
  | cons t ts ih =>
    cases hft : strFind t content with
    | none =>
      simp [results, List.filterMap_cons, List.filter_cons, hft] at ih ⊢
      exact ih
    | some j =>
      simp [results, List.filterMap_cons, List.filter_cons, hft] at ih ⊢
      exact ih

theorem results_eq_map_core (content : List Char) :
    ∀ terms : List (List Char),
      results content terms
        = (resultsCore content terms).map (fun b => b ++ nl) := by
  intro terms
  induction terms with
  | nil => rfl
  | cons t ts ih =>
    cases hft : strFind t content with
    | none =>
      simp [results, resultsCore, List.filterMap_cons, hft] at ih ⊢
      exact ih
    | some j =>
      simp [results, resultsCore, List.filterMap_cons, hft, blockFor] at ih ⊢
      exact ih

theorem joinSep_map_append (sep tail : List Char) :
    ∀ cores : List (List Char), cores ≠ [] →
      joinSep sep (cores.map (fun c => c ++ tail))
        = joinSep (tail ++ sep) cores ++ tail := by
  intro cores
  induction cores with
  | nil => intro h; exact absurd rfl h
  | cons c cs ih =>
    intro _
    cases cs with
    | nil => rfl
    | cons c' cs' =>
      have := ih (by simp)
      simp only [List.map_cons, joinSep] at this ⊢
      rw [this]
      simp [List.append_assoc]

/-- Every element of the results list is a block: a header line for a
matched term, a newline, that term's snippet, and a trailing newline. -/
theorem mem_results_block {content b : List Char} {terms : List (List Char)}
    (hb : b ∈ results content terms) :
    ∃ t i, t ∈ terms ∧ strFind t content = some i ∧
      b = headerOf t ++ nl ++ snippetOf content i ++ nl := by
  unfold results at hb
  rcases List.mem_filterMap.mp hb with ⟨t, htmem, hft⟩
  rcases Option.map_eq_some'.mp hft with ⟨i, hfind, hbdef⟩
  exact ⟨t, i, htmem, hfind, by
    rw [← hbdef]; simp [blockFor, blockCore, List.append_assoc]⟩

/-! ### The concrete scenario of the spec's window example -/

/-- The example source text: `"abc" + "50%" + "x"*2000`. -/
def c2content : List Char :=
  ("abc").data ++ ("50%").data ++ List.replicate 2000 'x'

theorem c2_find : strFind (("50%").data) c2content = some 3 := by decide

theorem c2_scan :
    runScan c2content [("50%").data] = blockFor c2content (("50%").data) 3 := by
  simp [runScan, results, List.filterMap_cons, c2_find, joinSep]

theorem c2_length : c2content.length = 2006 := by
  unfold c2content
  rw [List.length_append, List.length_append, List.length_replicate]
  rfl

theorem c2_snippet :
    snippetOf c2content 3 = ("abc").data ++ ("50%").data ++ List.replicate 1497 'x' := by
  unfold snippetOf pySlice startOf endOf
  rw [c2_length]
  show c2content.take 1503 = _
  unfold c2content
  rw [List.take_append_eq_append_take, List.take_of_length_le (by decide)]
  have h6 : (("abc").data ++ ("50%").data).length = 6 := by decide
  rw [h6]
  show _ ++ _ ++ (List.replicate 2000 'x').take 1497 = _
  rw [List.take_replicate]
  rfl

theorem c2_run_eq :
    runScan c2content [("50%").data]
      = headerOf (("50%").data) ++ nl
          ++ (("abc").data ++ ("50%").data ++ List.replicate 1497 'x') ++ nl := by
  rw [c2_scan]
  unfold blockFor blockCore
  rw [c2_snippet]

/-! ### The claims -/

/-- C1: for every hardcoded search term occurring in the source content,
the results list holds exactly one block for that term, whose snippet is
exactly `content[max(0,i-500):min(len(content),i+1500)]` for the first
occurrence index `i`; the snippet is at most 2000 characters long. -/
theorem C1_unique_block_and_snippet (content term : List Char)
    (hmem : term ∈ search_terms) (i : Nat)
    (hocc : occursAt content term i)
    (hfirst : ∀ j, j < i → ¬ occursAt content term j) :
    (results content search_terms).countP (isBlockForB term) = 1 ∧
    headerOf term ++ nl ++ pySlice content (i - 500) (min content.length (i + 1500)) ++ nl
      ∈ results content search_terms ∧
    (pySlice content (i - 500) (min content.length (i + 1500))).length ≤ 2000 := by
  have hfind := strFind_eq_some_of_first hocc hfirst
  refine ⟨countP_results_eq_one hmem hfind, ?_, ?_⟩
  · have hmemb : blockFor content term i ∈ results content search_terms := by
      unfold results
      exact List.mem_filterMap.mpr ⟨term, hmem, by rw [hfind]; rfl⟩
    simpa [blockFor, blockCore, snippetOf, startOf, endOf, List.append_assoc]
      using hmemb
  · unfold pySlice
    have h1 : ((content.drop (i - 500)).take
        (min content.length (i + 1500) - (i - 500))).length
        ≤ min content.length (i + 1500) - (i - 500) := by
      rw [List.length_take]; exact Nat.min_le_left _ _
    have h2 : min content.length (i + 1500) ≤ i + 1500 := Nat.min_le_right _ _
    omega

theorem C1_unique_block_and_snippet_witness :
    (("50%").data ∈ search_terms) ∧
    occursAt (("ab50%cd").data) (("50%").data) 2 ∧
    (∀ j, j < 2 → ¬ occursAt (("ab50%cd").data) (("50%").data) j) ∧
    ((results (("ab50%cd").data) search_terms).countP (isBlockForB (("50%").data)) = 1 ∧
      headerOf (("50%").data) ++ nl
          ++ pySlice (("ab50%cd").data) (2 - 500) (min (("ab50%cd").data).length (2 + 1500))
          ++ nl
        ∈ results (("ab50%cd").data) search_terms ∧
      (pySlice (("ab50%cd").data) (2 - 500)
        (min (("ab50%cd").data).length (2 + 1500))).length ≤ 2000) :=
  ⟨by decide, by decide, by decide,
    C1_unique_block_and_snippet (("ab50%cd").data) (("50%").data) (by decide) 2
      (by decide) (by decide)⟩

/-- C2 (amended): for the input `"abc" + "50%" + "x"*2000` and the term
list `["50%"]`, the report is exactly one block for `"50%"` whose snippet
is `"abc" + "50%" + "x"*1497` (the window ends at `index + 1500 = 1503`,
not at `index + len(term) + 1500`). -/
theorem C2_scenario_snippet :
    runScan c2content [("50%").data]
      = headerOf (("50%").data) ++ nl
          ++ (("abc").data ++ ("50%").data ++ List.replicate 1497 'x') ++ nl :=
  c2_run_eq

/-- C2 counterexample: the snippet claimed by the spec's scenario,
`"abc" + "50%" + "x"*1500`, is not what the scan produces. -/
theorem C2_counterexample_snippet :
    runScan c2content [("50%").data]
      ≠ headerOf (("50%").data) ++ nl
          ++ (("abc").data ++ ("50%").data ++ List.replicate 1500 'x') ++ nl := by
  rw [c2_run_eq]
  intro h
  have hl := congrArg List.length h
  simp only [List.length_append, List.length_replicate] at hl
  omega

/-- C3: when the load step fails, the run aborts with the error surfaced
and the destination file keeps its previous state (no write happens). -/
theorem C3_load_error_no_write (e : LoadError) (dest : Option (List Char)) :
    runPipeline (Except.error e) = Except.error e ∧
    finalDest (Except.error e) dest = dest :=
  ⟨rfl, rfl⟩

/-- C4: a hardcoded term occurring nowhere in the content contributes no
block to the results; and when no term at all matches, the run still
writes the output file, with an empty report. -/
theorem C4_absent_term_no_block (content term : List Char)
    (hmem : term ∈ search_terms)
    (hno : ∀ i, ¬ occursAt content term i) :
    (results content search_terms).countP (isBlockForB term) = 0 ∧
    ((∀ t ∈ search_terms, ∀ i, ¬ occursAt content t i) →
      ∀ dest, finalDest (Except.ok content) dest = some [] ∧ report content = []) := by
  have hfind : strFind term content = none := by
    cases h : strFind term content with
    | none => rfl
    | some k => exact absurd (strFind_some_occursAt h) (hno k)
  refine ⟨countP_results_eq_zero hmem hfind, ?_⟩
  intro hall dest
  have hres : results content search_terms = [] := by
    unfold results
    rw [List.filterMap_eq_nil_iff]
    intro t ht
    have hnone : strFind t content = none := by
      cases h : strFind t content with
      | none => rfl
      | some k => exact absurd (strFind_some_occursAt h) (hall t ht k)
    rw [hnone]; rfl
  have hrep : report content = [] := by
    rw [report, runScan, hres]; rfl
  exact ⟨by show some (report content) = some []; rw [hrep], hrep⟩

theorem C4_absent_term_no_block_witness :
    (results ([] : List Char) search_terms).countP (isBlockForB (("50%").data)) = 0 ∧
    finalDest (Except.ok ([] : List Char)) none = some [] ∧
    report ([] : List Char) = [] :=
  have h := C4_absent_term_no_block [] (("50%").data) (by decide)
    (fun i hi => by
      unfold occursAt at hi
      rw [List.drop_nil] at hi
      exact absurd hi (by decide))
  have h2 := h.2
    (fun t ht i hcc => by
      unfold occursAt at hcc
      rw [List.drop_nil, List.take_nil] at hcc
      rw [← hcc] at ht
      exact absurd ht (by decide)) none
  ⟨h.1, h2.1, h2.2⟩

/-- C5: the context window is always in range: a match at index 0 gives
start 0, a match within the last 1500 characters gives an end equal to
the document length, and `max(0,i-500) ≤ min(len,i+1500) ≤ len`. -/
theorem C5_window_in_range (content term : List Char) (i : Nat)
    (hfind : strFind term content = some i) :
    (i = 0 → startOf i = 0) ∧
    (content.length ≤ i + 1500 → endOf content i = content.length) ∧
    startOf i ≤ endOf content i ∧
    endOf content i ≤ content.length := by
  have hlen := strFind_le_length hfind
  refine ⟨?_, ?_, ?_, Nat.min_le_left _ _⟩
  · intro h; subst h; rfl
  · intro h; exact Nat.min_eq_left h
  · unfold startOf endOf
    exact Nat.le_min.mpr ⟨by omega, by omega⟩

theorem C5_window_in_range_witness :
    strFind (("50%").data) (("50%").data) = some 0 ∧
    ((0 = 0 → startOf 0 = 0) ∧
      ((("50%").data).length ≤ 0 + 1500 →
        endOf (("50%").data) 0 = (("50%").data).length) ∧
      startOf 0 ≤ endOf (("50%").data) 0 ∧
      endOf (("50%").data) 0 ≤ (("50%").data).length) :=
  ⟨by decide, C5_window_in_range (("50%").data) (("50%").data) 0 (by decide)⟩

/-- C6: the index used for a term's context extraction is the first
(lowest) occurrence of that term; there is still only one block for the
term, so later occurrences contribute nothing. -/
theorem C6_first_occurrence_used (content term : List Char) (i : Nat)
    (hmem : term ∈ search_terms)
    (hfind : strFind term content = some i) :
    occursAt content term i ∧
    (∀ j, j < i → ¬ occursAt content term j) ∧
    (results content search_terms).countP (isBlockForB term) = 1 :=
  ⟨strFind_some_occursAt hfind, strFind_some_first hfind,
    countP_results_eq_one hmem hfind⟩

theorem C6_first_occurrence_used_witness :
    (("50%").data ∈ search_terms) ∧
    strFind (("50%").data) (("ab50%50%").data) = some 2 ∧
    (occursAt (("ab50%50%").data) (("50%").data) 2 ∧
      (∀ j, j < 2 → ¬ occursAt (("ab50%50%").data) (("50%").data) j) ∧
      (results (("ab50%50%").data) search_terms).countP
        (isBlockForB (("50%").data)) = 1) :=
  ⟨by decide, by decide,
    C6_first_occurrence_used (("ab50%50%").data) (("50%").data) 2
      (by decide) (by decide)⟩

/-- C7: the blocks appear in the order of the term list, and each block
is a function of the content and its own term alone: the results are the
matched subsequence of the term list, mapped to their blocks. -/
theorem C7_order_and_independence (content : List Char) :
    results content search_terms
      = (search_terms.filter (fun t => (strFind t content).isSome)).map
          (fun t => blockFor content t ((strFind t content).getD 0)) :=
  results_eq_filter_map content search_terms

/-- C8: every block is a header line for its term, a newline and the raw
snippet, then a trailing newline; the written report joins the blocks so
that exactly one blank line separates consecutive blocks. -/
theorem C8_block_format_and_separator (content : List Char) :
    (∀ b ∈ results content search_terms, ∃ t i, t ∈ search_terms ∧
        strFind t content = some i ∧
        b = headerOf t ++ nl ++ snippetOf content i ++ nl) ∧
    (results content search_terms ≠ [] →
      report content = joinSep (nl ++ nl) (resultsCore content search_terms) ++ nl) := by
  constructor
  · intro b hb; exact mem_results_block hb
  · intro hne
    rw [report, runScan, results_eq_map_core]
    have hc : resultsCore content search_terms ≠ [] := by
      intro h0
      rw [results_eq_map_core content search_terms, h0] at hne
      exact hne rfl
    exact joinSep_map_append nl nl _ hc

theorem C8_block_format_and_separator_witness :
    report (("50%").data)
      = joinSep (nl ++ nl) (resultsCore (("50%").data) search_terms) ++ nl :=
  (C8_block_format_and_separator (("50%").data)).2 (by decide)

/-- C9: the pipeline is deterministic: two runs on the same loaded
content produce identical outputs. -/
theorem C9_deterministic (l1 l2 : Except LoadError (List Char)) (h : l1 = l2) :
    runPipeline l1 = runPipeline l2 := by
  rw [h]

theorem C9_deterministic_witness :
    runPipeline (Except.ok (("50%").data)) = runPipeline (Except.ok (("50%").data)) :=
  C9_deterministic (Except.ok (("50%").data)) (Except.ok (("50%").data)) rfl

/-- C10: the slice bounds satisfy `start ≤ index < end`, so the character
at the match position is always inside the snippet. -/
theorem C10_match_position_in_snippet (content term : List Char) (i : Nat)
    (hmem : term ∈ search_terms)
    (hfind : strFind term content = some i) :
    startOf i ≤ i ∧ i < endOf content i ∧
    (snippetOf content i)[i - startOf i]? = content[i]? := by
  have hocc := strFind_some_occursAt hfind
  have hterm_ne : term ≠ [] := by
    have hall : ∀ t ∈ search_terms, t ≠ ([] : List Char) := by decide
    exact hall term hmem
  have hlt : i < content.length := by
    by_contra hge
    push_neg at hge
    have hdrop : content.drop i = [] := List.drop_eq_nil_of_le hge
    unfold occursAt at hocc
    rw [hdrop, List.take_nil] at hocc
    exact hterm_ne hocc.symm
  have hiend : i < endOf content i := by
    unfold endOf
    exact Nat.lt_min.mpr ⟨hlt, by omega⟩
  refine ⟨Nat.sub_le i 500, hiend, ?_⟩
  have hi_lt : i - startOf i < endOf content i - startOf i := by
    have hs : startOf i ≤ i := Nat.sub_le i 500
    omega
  unfold snippetOf pySlice
  rw [List.getElem?_take_of_lt hi_lt, List.getElem?_drop]
  have harith : startOf i + (i - startOf i) = i := by
    have hs : startOf i ≤ i := Nat.sub_le i 500
    omega
  rw [harith]

theorem C10_match_position_in_snippet_witness :
    (("50%").data ∈ search_terms) ∧
    strFind (("50%").data) (("ab50%").data) = some 2 ∧
    (startOf 2 ≤ 2 ∧ 2 < endOf (("ab50%").data) 2 ∧
      (snippetOf (("ab50%").data) 2)[2 - startOf 2]? = (("ab50%").data)[2]?) :=
  ⟨by decide, by decide,
    C10_match_position_in_snippet (("ab50%").data) (("50%").data) 2
      (by decide) (by decide)⟩
